import Mathlib

/-
Verification of the deep-merge engine (`src/lib/merge.js`) and the
composed-key configuration store (`src/lib/configuration.js`) of
node-merge-config.

The JavaScript data is embedded shallowly: JS runtime values become the
`JsVal` tree (arrays are objects whose enumerable own keys are decimal
indices, distinguished by an `isArr` flag, since `typeof [] === 'object'`);
the engine and the store are translated function by function.  In-place
mutation is treated at two levels: a value-level model giving the structure
of the target after a call (adequate for tree-shaped, unaliased inputs), and
an explicit heap model (`HVal`/`Heap`) in which aliasing between the target
and the source arguments is observable.
-/

mutual
/-- JavaScript runtime values as `merge.js` and `configuration.js` see them. -/
inductive JsVal where
  | jundefined : JsVal
  | jnull : JsVal
  | jbool (b : Bool) : JsVal
  | jnum (n : Int) : JsVal
  | jstr (s : String) : JsVal
  | jobj (isArr : Bool) (fields : JsFields) : JsVal

/-- Own enumerable properties of a JS object, in insertion order. -/
inductive JsFields where
  | nil : JsFields
  | cons (name : String) (v : JsVal) (rest : JsFields) : JsFields
end

mutual
/-- Structural equality test on values (used to state disequalities). -/
def JsVal.beq : JsVal → JsVal → Bool
  | .jundefined, .jundefined => true
  | .jnull, .jnull => true
  | .jbool a, .jbool b => a == b
  | .jnum a, .jnum b => a == b
  | .jstr a, .jstr b => a == b
  | .jobj a fs, .jobj b gs => a == b && JsFields.beq fs gs
  | _, _ => false

/-- Structural equality test on property lists. -/
def JsFields.beq : JsFields → JsFields → Bool
  | .nil, .nil => true
  | .cons n v fs, .cons m w gs => n == m && JsVal.beq v w && JsFields.beq fs gs
  | _, _ => false
end

/-- Build a property list from a Lean list literal. -/
def fieldsOf : List (String × JsVal) → JsFields
  | [] => .nil
  | (n, v) :: ps => .cons n v (fieldsOf ps)

/-- `fields[name]`: the value of an own property, JS `undefined` when absent. -/
def JsFields.get : JsFields → String → JsVal
  | .nil, _ => .jundefined
  | .cons n v fs, name => if n = name then v else JsFields.get fs name

/-- Does the object have an own property called `name`? -/
def JsFields.has : JsFields → String → Bool
  | .nil, _ => false
  | .cons n _ fs, name => n == name || JsFields.has fs name

/-- `target[name] = v`: a JS property write keeps the position of an existing
property and appends a brand-new property at the end. -/
def JsFields.set : JsFields → String → JsVal → JsFields
  | .nil, name, v => .cons name v .nil
  | .cons n w fs, name, v =>
      if n = name then .cons n v fs else .cons n w (JsFields.set fs name v)

/-- The property names, in order. -/
def JsFields.names : JsFields → List String
  | .nil => []
  | .cons n _ fs => n :: JsFields.names fs

/-- The JS test `x && typeof x === 'object'` (truthy and of object type):
true exactly for objects and arrays.  `null` has object type but is falsy;
`undefined` and scalars do not have object type. -/
def JsVal.isObjLike : JsVal → Bool
  | .jobj _ _ => true
  | _ => false

/-- Scalars in the sense of the spec's data model: string, number, boolean
or null (not `undefined`, not arrays, not objects). -/
def JsVal.isScalar : JsVal → Bool
  | .jnull => true
  | .jbool _ => true
  | .jnum _ => true
  | .jstr _ => true
  | _ => false

/-- JS property read `o[name]` (only ever applied to objects here). -/
def JsVal.prop : JsVal → String → JsVal
  | .jobj _ fs, name => fs.get name
  | _, _ => .jundefined

mutual
/-- Value-level embedding of `mergeObjects` from `src/lib/merge.js` lines
42-53: the structure of `target` after `mergeObjects(target, source)` for
tree-shaped (unaliased) arguments.  Only called on two objects; on anything
else it leaves the target as is. -/
def mergeObjectsV : JsVal → JsVal → JsVal
  | .jobj ta tfs, .jobj _ sfs => .jobj ta (mergeFieldsV tfs sfs)
  | t, _ => t

/-- The `for (var name in source)` loop of `mergeObjects`: for each own
property of the source, if `target[name] && source[name]` are both truthy and
of object type, recurse into the two values; otherwise assign
`target[name] = source[name]`. -/
def mergeFieldsV : JsFields → JsFields → JsFields
  | tfs, .nil => tfs
  | tfs, .cons n sv rest =>
      if (tfs.get n).isObjLike && sv.isObjLike then
        mergeFieldsV (tfs.set n (mergeObjectsV (tfs.get n) sv)) rest
      else
        mergeFieldsV (tfs.set n sv) rest
end

/-- The source loop of `merge` from `src/lib/merge.js` lines 32-38: each
source is validated only when it is reached, so sources before the first
invalid one have already been merged into the target when `MERGE_INVALID`
is thrown.  Returns the target contents at exit and whether the call threw. -/
def mergeLoopV : JsVal → List JsVal → JsVal × Bool
  | t, [] => (t, false)
  | t, s :: rest =>
      if s.isObjLike then mergeLoopV (mergeObjectsV t s) rest else (t, true)

/-- Value-level embedding of `merge` from `src/lib/merge.js` lines 28-40:
throw `MERGE_INVALID` if the target is null or not of object type, then fold
the sources in, validating each one as it is reached. -/
def mergeRunV (t : JsVal) (ss : List JsVal) : JsVal × Bool :=
  if t.isObjLike then mergeLoopV t ss else (t, true)

mutual
/-- Modelled from the spec (§6 external collaborators): `configuration.js`
performs all of its merging with `_.merge` from the external lodash library,
which is not part of this repository.  Per-key rule of lodash's recursive
merge, modelled from its documented behavior: an array source merges
element-wise into an array target and replaces any other target value; a
plain-object source merges into any object-typed target (which keeps its
container) and replaces any other target value; every other source value is
assigned.  (`undefined` source values are handled by the caller,
`lodashFieldsV`.) -/
def lodashValueV : JsVal → JsVal → JsVal
  | tv, .jobj true sfs =>
      match tv with
      | .jobj true tfs => .jobj true (lodashFieldsV tfs sfs)
      | _ => .jobj true sfs
  | tv, .jobj false sfs =>
      match tv with
      | .jobj ta tfs => .jobj ta (lodashFieldsV tfs sfs)
      | _ => .jobj false sfs
  | _, sv => sv

/-- Modelled from the spec (§6): the property loop of lodash `_.merge`.
An `undefined` source value leaves an existing property alone (it only
creates the property, as `undefined`, when the key is absent); any other
source value is combined with the current value by `lodashValueV`.
`_.merge` never throws. -/
def lodashFieldsV : JsFields → JsFields → JsFields
  | tfs, .nil => tfs
  | tfs, .cons n sv rest =>
      match sv with
      | .jundefined => lodashFieldsV (if tfs.has n then tfs else tfs.set n .jundefined) rest
      | _ => lodashFieldsV (tfs.set n (lodashValueV (tfs.get n) sv)) rest
end

/-- Modelled from the spec (§6): lodash `_.merge(target, source)` for one
source, at the top level.  Both sides objects: merge the property lists;
otherwise the target is returned unchanged (a nullish or primitive source
contributes no own enumerable properties; string sources, whose index
properties lodash would copy, are not modelled — no claim exercises them). -/
def lodashMergeV : JsVal → JsVal → JsVal
  | .jobj ta tfs, .jobj _ sfs => .jobj ta (lodashFieldsV tfs sfs)
  | t, _ => t

/-- Does `sep` occur as an initial run of `s`? (On character lists.) -/
def startsWithL : List Char → List Char → Bool
  | [], _ => true
  | _ :: _, [] => false
  | p :: ps, c :: cs => p == c && startsWithL ps cs

/-- Model of JS `String.prototype.split` with a non-empty separator, on
character lists: scan for the next occurrence of `sep`, cutting the string at
every occurrence.  `acc` holds the current chunk reversed; the fuel (any bound
larger than the length of the remaining text suffices, since each separator
occurrence consumes at least one character) keeps the recursion structural. -/
def splitAuxL : Nat → List Char → List Char → List Char → List (List Char)
  | 0, _, acc, rest => [acc.reverse ++ rest]
  | _ + 1, _, acc, [] => [acc.reverse]
  | fuel + 1, sep, acc, c :: cs =>
      if startsWithL sep (c :: cs) then
        acc.reverse :: splitAuxL fuel sep [] (List.drop sep.length (c :: cs))
      else
        splitAuxL fuel sep (c :: acc) cs

/-- JS `key.split(delimiter)` (for the non-empty delimiters the store can be
configured with; the constructor coerces a falsy delimiter to `":"`). -/
def splitStr (sep s : String) : List String :=
  (splitAuxL (s.length + 1) sep.toList [] s.toList).map (fun cs => String.mk cs)

/-- JS `parts.join(delimiter)`. -/
def joinDelim (delim : String) : List String → String
  | [] => ""
  | [w] => w
  | w :: w2 :: ws => w ++ delim ++ joinDelim delim (w2 :: ws)

/-- Shallow embedding of `_buildObject` from `src/lib/configuration.js` lines
99-108: `_buildObject({}, value, keys)` nests `value` at the end of a chain of
single-key objects.  It is only reached with the non-empty list produced by
`split`; the `[]` case is arbitrary. -/
def buildObject (value : JsVal) : List String → JsVal
  | [] => .jobj false .nil
  | [k] => .jobj false (.cons k value .nil)
  | k :: k2 :: ks => .jobj false (.cons k (buildObject value (k2 :: ks)) .nil)

/-- Shallow embedding of `_getObject` from `src/lib/configuration.js` lines
75-84: shift a key, return `object[key]` when it was the last one, recurse
when `object[key]` is a non-null value of object type, and return `undefined`
otherwise.  Only reached with the non-empty list produced by `split`. -/
def getObject : JsVal → List String → JsVal
  | _, [] => .jundefined
  | o, [k] => o.prop k
  | o, k :: k2 :: ks =>
      if (o.prop k).isObjLike then getObject (o.prop k) (k2 :: ks) else .jundefined

/-- Shallow embedding of the store's `get` (lines 119-124): a falsy
`composedKey` — absent (`none`) or the empty string — returns the whole
configuration object; otherwise split on the delimiter and walk. -/
def storeGet (delim : String) (config : JsVal) (composedKey : Option String) : JsVal :=
  match composedKey with
  | none => config
  | some k => if k = "" then config else getObject config (splitStr delim k)

/-- Shallow embedding of the store's `set` (lines 135-138): build the source
fragment from the split key and merge it into the configuration with lodash
`_.merge`. -/
def storeSet (delim : String) (config : JsVal) (composedKey : String) (value : JsVal) : JsVal :=
  lodashMergeV config (buildObject value (splitStr delim composedKey))

/-- One source argument of lodash `_.merge(object, ...sources)`: nullish
sources are skipped, object sources are merged, other primitives contribute
no own enumerable properties (string index properties not modelled). -/
def lodashApply (c s : JsVal) : JsVal :=
  match s with
  | .jobj _ _ => lodashMergeV c s
  | _ => c

/-- Shallow embedding of the store's `merge` (lines 143-147): it prepends the
configuration to its argument list and calls lodash `_.merge`, whose body
contains no `throw`; the `Except` result type makes the absence of a thrown
error part of the statement — no `.error` value is ever produced. -/
def storeMergeRun (config : JsVal) (sources : List JsVal) : Except String JsVal :=
  .ok (sources.foldl lodashApply config)

/-- Uppercase the first character (JS-style word capitalization). -/
def capitalizeL : List Char → List Char
  | [] => []
  | c :: cs => c.toUpper :: cs

/-- Modelled from the spec (§6 external collaborators): the change-case
`camelCase` formatter used by `env`, which is not part of this repository;
modelled from its documented behavior on the underscore/hyphen-delimited
tokens environment variables use: lowercase everything, split on `_`/`-`,
keep the first word, capitalize the first letter of each later word, join. -/
def camelCase (s : String) : String :=
  let norm := String.mk (s.toList.map (fun c => if c = '-' then '_' else Char.toLower c))
  match (splitStr "_" norm).map String.toList with
  | [] => ""
  | w :: ws => String.mk (w ++ (ws.map capitalizeL).flatten)

/-- Shallow embedding of `env` (lines 170-178) over an explicit snapshot of
`process.env` (name/value pairs in enumeration order): each variable name is
split on the delimiter, every segment camelCased, and the segments rejoined
with the delimiter; the variable is ingested via `set` iff there is no
whitelist or the *formatted* name occurs in the whitelist. -/
def envRun (delim : String) (environment : List (String × String))
    (whitelist : Option (List String)) (config : JsVal) : JsVal :=
  environment.foldl
    (fun c p =>
      let formatted := joinDelim delim ((splitStr delim p.1).map camelCase)
      match whitelist with
      | none => storeSet delim c formatted (.jstr p.2)
      | some wl =>
          if formatted ∈ wl then storeSet delim c formatted (.jstr p.2) else c)
    config


/-- A node of the filesystem as the store observes it through the synchronous
`fs` collaborator: a regular file (carrying the object its text parses to —
hjson/js-yaml parsing is external and modelled here as already performed and
successful) or a directory with its immediate entries.  This model therefore
only covers runs in which no parser throws; the refined `FSNodeP` model below
makes the parsers' outcomes explicit, including failures. -/
inductive FSNode where
  | file (content : JsVal) : FSNode
  | dir (entries : List (String × FSNode)) : FSNode

/-- A `FILE_INVALID` error from the `therror` registry of
`src/lib/configuration.js`: the offending path (template argument 1) and the
diagnostic message (template argument 2). -/
structure FileErr where
  path : String
  msg : String
deriving DecidableEq

/-- The `message` of a thrown `FILE_INVALID`, from its `therror` template
`Invalid configuration file: "{1}". {2}`. -/
def FileErr.rendered (e : FileErr) : String :=
  "Invalid configuration file: \"" ++ e.path ++ "\". " ++ e.msg

/-- The extension from the last `.` of `cs`, taking the rightmost dot of the
string; `none` when there is no dot. -/
def extFrom : List Char → Option (List Char)
  | [] => none
  | '.' :: cs =>
      match extFrom cs with
      | some e => some e
      | none => some ('.' :: cs)
  | _ :: cs => extFrom cs

/-- Model of node's `path.extname`: the part of the final path segment from
its last `.`, unless that dot is the segment's first character (so
`.gitignore` has no extension). -/
def extname (s : String) : String :=
  match ((splitStr "/" s).getLastD "").toList with
  | [] => ""
  | _ :: cs =>
      match extFrom cs with
      | some e => String.mk e
      | none => ""

/-- The file extensions `_loadFile` recognizes. -/
def recognizedExt (e : String) : Bool :=
  e == ".json" || e == ".yml" || e == ".yaml"

/-- Shallow embedding of `_loadFile` (lines 188-199): merge the parsed content
into the configuration when the extension is `.json` (hjson parser) or
`.yml`/`.yaml` (YAML parser); otherwise throw
`FILE_INVALID(configFile, 'Configuration file has an invalid extension')`
unless `ignoreErrors === true`.  Returns the new configuration and the thrown
error, if any. -/
def loadFileRun (configFile : String) (content : JsVal) (ignoreErrors : Bool)
    (config : JsVal) : JsVal × Option FileErr :=
  let ext := extname configFile
  if ext = ".json" then
    (lodashMergeV config content, none)
  else if ext = ".yml" ∨ ext = ".yaml" then
    (lodashMergeV config content, none)
  else if ignoreErrors = true then
    (config, none)
  else
    (config, some ⟨configFile, "Configuration file has an invalid extension"⟩)

/-- Lexicographic order on character lists, as JS `Array.prototype.sort`'s
default comparator orders strings (code-unit comparison; identical for the
basic multilingual plane). -/
def leListChar : List Char → List Char → Bool
  | [], _ => true
  | _ :: _, [] => false
  | a :: as, b :: bs => if a = b then leListChar as bs else decide (a < b)

/-- The string order used to sort directory listings. -/
def strLe (a b : String) : Bool := leListChar a.toList b.toList

/-- The sorted directory listing: JS `files.sort()` compares strings
lexicographically; directory entries are sorted (stably) by name. -/
def sortEntries (entries : List (String × FSNode)) : List (String × FSNode) :=
  List.insertionSort (fun p q => strLe p.1 q.1 = true) entries

/-- The loop body of `_loadDir` over the already-sorted listing: each entry
that `statSync(...).isFile()` accepts is loaded with `ignoreErrors = true`;
directory entries fail that test and are skipped (never recursed into).  An
error (impossible here, but kept for faithful plumbing) would abort the loop. -/
def loadDirGo (configDir : String) :
    JsVal × Option FileErr → List (String × FSNode) → JsVal × Option FileErr
  | acc, [] => acc
  | (c, some e), _ => (c, some e)
  | (c, none), p :: ps =>
      match p.2 with
      | .file content =>
          loadDirGo configDir (loadFileRun (configDir ++ "/" ++ p.1) content true c) ps
      | .dir _ => loadDirGo configDir (c, none) ps

/-- Shallow embedding of `_loadDir` (lines 207-216): sort the immediate
entries of the directory by name and load each regular file among them. -/
def loadDirRun (configDir : String) (entries : List (String × FSNode))
    (config : JsVal) : JsVal × Option FileErr :=
  loadDirGo configDir (config, none) (sortEntries entries)

/-- The parsed contents of the recognized regular files among `entries`, in
list order, as `_loadDir` would merge them. -/
def dirContents (configDir : String) : List (String × FSNode) → List JsVal
  | [] => []
  | p :: ps =>
      match p.2 with
      | .file content =>
          if recognizedExt (extname (configDir ++ "/" ++ p.1)) then
            content :: dirContents configDir ps
          else
            dirContents configDir ps
      | .dir _ => dirContents configDir ps

/-- Shallow embedding of `file` (lines 225-236).  The filesystem is an
external collaborator, so the outcome of `fs.statSync(filePath)` is an
explicit argument: `.error msg` when the path is missing or inaccessible
(`msg` being the filesystem error message), otherwise `.ok` with the node
(a directory node carries its listing).  Any error thrown inside the `try`
block is caught and re-thrown as `FILE_INVALID(filePath, e.message)`. -/
def fileRun (filePath : String) (stat : Except String FSNode) (config : JsVal) :
    JsVal × Option FileErr :=
  match stat with
  | .error msg => (config, some ⟨filePath, msg⟩)
  | .ok (.dir entries) =>
      match loadDirRun filePath entries config with
      | (c, none) => (c, none)
      | (c, some e) => (c, some ⟨filePath, e.rendered⟩)
  | .ok (.file content) =>
      match loadFileRun filePath content false config with
      | (c, none) => (c, none)
      | (c, some e) => (c, some ⟨filePath, e.rendered⟩)

/-- A filesystem node with the external parsers' outcomes made explicit: a
regular file carries the result of parsing its text with hjson or js-yaml —
`.ok` the parsed object, or `.error` with the parser error's message (the
parsers are external collaborators of §6, so their outcome is an input of the
model).  This refines `FSNode`, whose files always parse. -/
inductive FSNodeP where
  | file (parsed : Except String JsVal) : FSNodeP
  | dir (entries : List (String × FSNodeP)) : FSNodeP

/-- `_loadFile` (lines 188-199) with parse outcomes: on a recognized
extension the file is read and parsed — a parser failure *throws from inside
the branch*, which `ignoreErrors` does not silence (that flag only guards the
unknown-extension branch) — and the parsed object is merged; an unrecognized
extension throws `FILE_INVALID` unless `ignoreErrors === true`.  The error
channel carries the thrown error's `.message`, which is all `file()`'s catch
consumes: the parser's message, or the rendered `FILE_INVALID` message. -/
def loadFilePRun (configFile : String) (parsed : Except String JsVal)
    (ignoreErrors : Bool) (config : JsVal) : JsVal × Option String :=
  let ext := extname configFile
  if ext = ".json" then
    match parsed with
    | .ok v => (lodashMergeV config v, none)
    | .error m => (config, some m)
  else if ext = ".yml" ∨ ext = ".yaml" then
    match parsed with
    | .ok v => (lodashMergeV config v, none)
    | .error m => (config, some m)
  else if ignoreErrors = true then
    (config, none)
  else
    (config, some (FileErr.rendered ⟨configFile, "Configuration file has an invalid extension"⟩))

/-- The sorted directory listing over parse-aware nodes (same JS
`files.sort()` as `sortEntries`). -/
def sortEntriesP (entries : List (String × FSNodeP)) : List (String × FSNodeP) :=
  List.insertionSort (fun p q => strLe p.1 q.1 = true) entries

/-- The loop of `_loadDir` over the already-sorted parse-aware listing: each
regular file is loaded with `ignoreErrors = true`; a thrown error (now
possible: a parser failure) aborts the loop, leaving the merges of the
entries already processed in the configuration. -/
def loadDirPGo (configDir : String) :
    JsVal × Option String → List (String × FSNodeP) → JsVal × Option String
  | acc, [] => acc
  | (c, some e), _ => (c, some e)
  | (c, none), p :: ps =>
      match p.2 with
      | .file parsed =>
          loadDirPGo configDir (loadFilePRun (configDir ++ "/" ++ p.1) parsed true c) ps
      | .dir _ => loadDirPGo configDir (c, none) ps

/-- `_loadDir` (lines 207-216) over parse-aware nodes. -/
def loadDirPRun (configDir : String) (entries : List (String × FSNodeP))
    (config : JsVal) : JsVal × Option String :=
  loadDirPGo configDir (config, none) (sortEntriesP entries)

/-- `file` (lines 225-236) over parse-aware nodes: any error thrown inside
the `try` block — a `statSync` failure, the direct-file invalid-extension
throw, or a parser failure anywhere in the scan — is caught and re-thrown as
`FILE_INVALID(filePath, e.message)`, with the configuration keeping whatever
the loop had merged before the throw. -/
def filePRun (filePath : String) (stat : Except String FSNodeP) (config : JsVal) :
    JsVal × Option FileErr :=
  match stat with
  | .error msg => (config, some ⟨filePath, msg⟩)
  | .ok (.dir entries) =>
      match loadDirPRun filePath entries config with
      | (c, none) => (c, none)
      | (c, some m) => (c, some ⟨filePath, m⟩)
  | .ok (.file parsed) =>
      match loadFilePRun filePath parsed false config with
      | (c, none) => (c, none)
      | (c, some m) => (c, some ⟨filePath, m⟩)

/-- Heap-level JS values: primitives, or references to objects living in the
heap.  This second model of `merge.js` makes the in-place mutation and the
aliasing of `target[name] = source[name]` observable. -/
inductive HVal where
  | hundefined : HVal
  | hnull : HVal
  | hbool (b : Bool) : HVal
  | hnum (n : Int) : HVal
  | hstr (s : String) : HVal
  | href (a : Nat) : HVal
deriving DecidableEq

/-- A heap object: its array flag and its own enumerable properties. -/
structure HObj where
  isArr : Bool
  fields : List (String × HVal)
deriving DecidableEq

/-- A heap: finitely many addresses bound to objects. -/
abbrev Heap := List (Nat × HObj)

/-- The object stored at address `a`, if any. -/
def heapFind : Heap → Nat → Option HObj
  | [], _ => none
  | (b, o) :: h, a => if b = a then some o else heapFind h a

/-- Store `o` at address `a` (replacing the binding in place). -/
def heapSet : Heap → Nat → HObj → Heap
  | [], a, o => [(a, o)]
  | (b, w) :: h, a, o => if b = a then (b, o) :: h else (b, w) :: heapSet h a o

/-- Property lookup in a heap object's field list. -/
def getField : List (String × HVal) → String → Option HVal
  | [], _ => none
  | (m, w) :: fs, n => if m = n then some w else getField fs n

/-- Property write in a heap object's field list (JS keeps the position of an
existing property and appends a new one). -/
def setField : List (String × HVal) → String → HVal → List (String × HVal)
  | [], n, v => [(n, v)]
  | (m, w) :: fs, n, v => if m = n then (m, v) :: fs else (m, w) :: setField fs n v

/-- The address a truthy object-typed value refers to: the JS condition
`x && typeof x === 'object'` holds exactly for references (every heap object
is a non-null object; `null` is falsy). -/
def HVal.refOf : HVal → Option Nat
  | .href a => some a
  | _ => none

mutual
/-- Heap-level embedding of `mergeObjects` (`src/lib/merge.js` lines 42-53):
dereference the source and run the property loop on the snapshot of its own
properties.  The fuel only keeps the recursion structural (`none` = fuel ran
out or a dangling reference; neither happens on well-formed input with enough
fuel). -/
def hMergeObjects : Nat → Heap → Nat → Nat → Option Heap
  | 0, _, _, _ => none
  | fuel + 1, h, t, s =>
      match heapFind h s with
      | none => none
      | some so => hMergeFields fuel h t so.fields

/-- The `for (var name in source)` loop at heap level: at each step the target
is re-read from the current heap; when both `target[name]` and the source
value are references the merge recurses into the referenced objects, otherwise
the slot of the *target object itself* is overwritten with the source value —
an alias, not a copy. -/
def hMergeFields : Nat → Heap → Nat → List (String × HVal) → Option Heap
  | 0, _, _, _ => none
  | _ + 1, h, _, [] => some h
  | fuel + 1, h, t, (n, sv) :: rest =>
      match heapFind h t with
      | none => none
      | some tobj =>
          match (getField tobj.fields n).bind HVal.refOf, sv.refOf with
          | some ta, some sa =>
              match hMergeObjects fuel h ta sa with
              | none => none
              | some h1 => hMergeFields fuel h1 t rest
          | _, _ =>
              hMergeFields fuel (heapSet h t ⟨tobj.isArr, setField tobj.fields n sv⟩) t rest
end

/-- The source loop of the engine's `merge` (lines 32-38) at heap level:
validate each source as it is reached (`MERGE_INVALID` ends the loop with the
heap as mutated so far), and merge it into the target. -/
def hMergeLoop : Nat → Heap → Nat → List HVal → Option (Heap × Bool)
  | _, h, _, [] => some (h, false)
  | fuel, h, t, s :: rest =>
      match s.refOf with
      | none => some (h, true)
      | some sa =>
          match hMergeObjects fuel h t sa with
          | none => none
          | some h1 => hMergeLoop fuel h1 t rest

/-- Heap-level embedding of the engine's `merge` (lines 28-40): validate the
target, then fold the sources in.  Returns the final heap and whether
`MERGE_INVALID` was thrown. -/
def hMergeRun (fuel : Nat) (h : Heap) (target : HVal) (sources : List HVal) :
    Option (Heap × Bool) :=
  match target.refOf with
  | none => some (h, true)
  | some ta => hMergeLoop fuel h ta sources

mutual
/-- Read the pure tree value a heap value denotes (fuel-bounded; `none` on
dangling references or insufficient fuel). -/
def readVal : Nat → Heap → HVal → Option JsVal
  | 0, _, _ => none
  | _ + 1, _, .hundefined => some .jundefined
  | _ + 1, _, .hnull => some .jnull
  | _ + 1, _, .hbool b => some (.jbool b)
  | _ + 1, _, .hnum n => some (.jnum n)
  | _ + 1, _, .hstr s => some (.jstr s)
  | fuel + 1, h, .href a =>
      match heapFind h a with
      | none => none
      | some o =>
          match readFields fuel h o.fields with
          | none => none
          | some fs => some (.jobj o.isArr fs)

/-- Read a heap object's property list as a pure `JsFields`. -/
def readFields : Nat → Heap → List (String × HVal) → Option JsFields
  | 0, _, _ => none
  | _ + 1, _, [] => some .nil
  | fuel + 1, h, (n, v) :: rest =>
      match readVal fuel h v, readFields fuel h rest with
      | some jv, some jfs => some (.cons n jv jfs)
      | _, _ => none
end

/-- `a` points at `b` in heap `h`: an object stored at `a` has an own
property whose value is a reference to `b`. -/
def heapEdge (h : Heap) (a b : Nat) : Prop :=
  ∃ o n, heapFind h a = some o ∧ (n, HVal.href b) ∈ o.fields

/-- `R` is closed under the reference edges of `h`. -/
def edgeClosed (h : Heap) (R : Nat → Prop) : Prop :=
  ∀ a b, R a → heapEdge h a b → R b

/-- Every reference occurring among the values of `fs` lands in `R`. -/
def valsWithin (R : Nat → Prop) (fs : List (String × HVal)) : Prop :=
  ∀ p ∈ fs, ∀ b, p.2 = HVal.href b → R b

/-- The initial heap of the aliasing scenario: address 0 is the empty target,
address 1 the first source `{a: {x: 1}}` (its nested object at address 2),
address 3 the second source `{a: {y: 2}}` (its nested object at address 4). -/
def aliasHeap : Heap :=
  [ (0, ⟨false, []⟩),
    (1, ⟨false, [("a", HVal.href 2)]⟩),
    (2, ⟨false, [("x", HVal.hnum 1)]⟩),
    (3, ⟨false, [("a", HVal.href 4)]⟩),
    (4, ⟨false, [("y", HVal.hnum 2)]⟩) ]

/-- The auxiliary heap of the frame-property witness: the aliasing scenario
plus one extra object, at address 9, unreachable from every argument. -/
def aliasHeapW : Heap := aliasHeap ++ [(9, ⟨false, [("keep", HVal.hnum 7)]⟩)]

/-- The heap `aliasHeapW` becomes after `merge(target, s1, s2)` of the
aliasing scenario (address 2 — s1's nested object — got mutated; address 9
is untouched). -/
def aliasMergedW : Heap :=
  [ (0, ⟨false, [("a", HVal.href 2)]⟩),
    (1, ⟨false, [("a", HVal.href 2)]⟩),
    (2, ⟨false, [("x", HVal.hnum 1), ("y", HVal.hnum 2)]⟩),
    (3, ⟨false, [("a", HVal.href 4)]⟩),
    (4, ⟨false, [("y", HVal.hnum 2)]⟩),
    (9, ⟨false, [("keep", HVal.hnum 7)]⟩) ]

mutual
/-- `beq` is reflexive. -/
theorem beq_refl_val : (a : JsVal) → JsVal.beq a a = true
  | .jundefined => rfl
  | .jnull => rfl
  | .jbool b => by simp [JsVal.beq]
  | .jnum n => by simp [JsVal.beq]
  | .jstr s => by simp [JsVal.beq]
  | .jobj ar fs => by simp [JsVal.beq, beq_refl_fields fs]

/-- `beq` on property lists is reflexive. -/
theorem beq_refl_fields : (fs : JsFields) → JsFields.beq fs fs = true
  | .nil => rfl
  | .cons n v fs => by simp [JsFields.beq, beq_refl_val v, beq_refl_fields fs]
end

/-- Values on which `beq` computes `false` are distinct. -/
theorem JsVal.ne_of_beq_eq_false {a b : JsVal} (h : JsVal.beq a b = false) : a ≠ b := by
  intro hab
  subst hab
  rw [beq_refl_val a] at h
  exact Bool.noConfusion h

theorem JsFields.get_set_self : (fs : JsFields) → (n : String) → (v : JsVal) →
    (fs.set n v).get n = v
  | .nil, n, v => by simp [JsFields.set, JsFields.get]
  | .cons m w fs, n, v => by
      by_cases hmn : m = n
      · simp [JsFields.set, JsFields.get, hmn]
      · simp [JsFields.set, JsFields.get, hmn, JsFields.get_set_self fs n v]

theorem JsFields.get_set_ne : (fs : JsFields) → {m n : String} → m ≠ n → (v : JsVal) →
    (fs.set m v).get n = fs.get n
  | .nil, m, n, h, v => by simp [JsFields.set, JsFields.get, h]
  | .cons k w fs, m, n, h, v => by
      by_cases hkm : k = m
      · subst hkm
        simp [JsFields.set, JsFields.get, h]
      · by_cases hkn : k = n
        · simp [JsFields.set, JsFields.get, hkm, hkn, Ne.symm h]
        · simp [JsFields.set, JsFields.get, hkm, hkn, JsFields.get_set_ne fs h v]

theorem JsFields.has_set_self : (fs : JsFields) → (n : String) → (v : JsVal) →
    (fs.set n v).has n = true
  | .nil, n, v => by simp [JsFields.set, JsFields.has]
  | .cons m w fs, n, v => by
      by_cases hmn : m = n
      · simp [JsFields.set, JsFields.has, hmn]
      · simp [JsFields.set, JsFields.has, hmn, JsFields.has_set_self fs n v]

theorem JsFields.has_set_ne : (fs : JsFields) → {m n : String} → m ≠ n → (v : JsVal) →
    (fs.set m v).has n = fs.has n
  | .nil, m, n, h, v => by simp [JsFields.set, JsFields.has, h]
  | .cons k w fs, m, n, h, v => by
      by_cases hkm : k = m
      · subst hkm
        simp [JsFields.set, JsFields.has, h]
      · simp [JsFields.set, JsFields.has, hkm, JsFields.has_set_ne fs h v]

/-- `has` answers membership in the name list. -/
theorem JsFields.has_eq_mem_names : (fs : JsFields) → (n : String) →
    (fs.has n = true ↔ n ∈ fs.names)
  | .nil, n => by simp [JsFields.has, JsFields.names]
  | .cons m w fs, n => by
      simp only [JsFields.has, JsFields.names, Bool.or_eq_true, beq_iff_eq,
        List.mem_cons, JsFields.has_eq_mem_names fs n]
      exact or_congr eq_comm Iff.rfl

/-- C1 (amended): for every own key of the source, `mergeObjects` recurses
exactly when both the existing value and the new value are truthy values of
JS object type — which includes arrays, so two arrays (or an array and an
object) are merged key-wise by index; in every other case (either side a
scalar, `null`, `undefined`, or the key absent in the target) the new value
replaces the existing one wholesale, and the key set of the result is the
union of the two key sets. -/
theorem engineMerge_key_rule : (sfs : JsFields) → (tfs : JsFields) →
    sfs.names.Nodup → (n : String) →
    (mergeFieldsV tfs sfs).has n = (tfs.has n || sfs.has n) ∧
    (mergeFieldsV tfs sfs).get n =
      (if sfs.has n then
         if (tfs.get n).isObjLike && (sfs.get n).isObjLike then
           mergeObjectsV (tfs.get n) (sfs.get n)
         else sfs.get n
       else tfs.get n)
  | .nil, tfs, _, n => by simp [mergeFieldsV, JsFields.has]
  | .cons m sv rest, tfs, h, n => by
      obtain ⟨hm_notin, hrest_nodup⟩ :=
        List.nodup_cons.mp (by simpa [JsFields.names] using h)
      have hresthas : rest.has m = false := by
        cases hb : rest.has m with
        | false => rfl
        | true => exact absurd ((JsFields.has_eq_mem_names rest m).mp hb) hm_notin
      have hstep : mergeFieldsV tfs (.cons m sv rest)
          = mergeFieldsV
              (tfs.set m
                (if (tfs.get m).isObjLike && sv.isObjLike then
                   mergeObjectsV (tfs.get m) sv
                 else sv)) rest := by
        by_cases hc : ((tfs.get m).isObjLike && sv.isObjLike) = true <;>
          simp [mergeFieldsV, hc]
      obtain ⟨ihhas, ihget⟩ :=
        engineMerge_key_rule rest
          (tfs.set m
            (if (tfs.get m).isObjLike && sv.isObjLike then
               mergeObjectsV (tfs.get m) sv
             else sv)) hrest_nodup n
      by_cases hnm : n = m
      · subst hnm
        refine ⟨?_, ?_⟩
        · rw [hstep, ihhas, JsFields.has_set_self, hresthas]
          simp [JsFields.has]
        · rw [hstep, ihget, hresthas]
          simp [JsFields.get, JsFields.has, JsFields.get_set_self]
      · have hmn : m ≠ n := fun hh => hnm hh.symm
        have hbe : (m == n) = false := beq_eq_false_iff_ne.mpr hmn
        refine ⟨?_, ?_⟩
        · rw [hstep, ihhas, JsFields.has_set_ne tfs hmn]
          simp [JsFields.has, hbe]
        · rw [hstep, ihget, JsFields.get_set_ne tfs hmn]
          simp [JsFields.get, JsFields.has, hbe, hmn]

/-- Witness for `engineMerge_key_rule` at a one-key source whose value is a
scalar: the source value replaces the target value. -/
theorem engineMerge_key_rule_witness :
    (fieldsOf [("a", JsVal.jnum 2)]).names.Nodup ∧
    (mergeFieldsV (fieldsOf [("a", JsVal.jnum 1)]) (fieldsOf [("a", JsVal.jnum 2)])).get "a"
      = JsVal.jnum 2 :=
  ⟨by decide,
   (engineMerge_key_rule (fieldsOf [("a", JsVal.jnum 2)])
      (fieldsOf [("a", JsVal.jnum 1)]) (by decide) "a").2⟩

/-- C1 (counterexample): when both the existing and the new value are arrays,
`mergeObjects` does *not* replace wholesale — `{a: [1,2,3]}` merged with
`{a: [9]}` yields `{a: [9,2,3]}` (index-wise merge), not `{a: [9]}`. -/
theorem engineMerge_arrays_counterexample :
    mergeObjectsV
        (.jobj false (fieldsOf
          [("a", .jobj true (fieldsOf [("0", .jnum 1), ("1", .jnum 2), ("2", .jnum 3)]))]))
        (.jobj false (fieldsOf [("a", .jobj true (fieldsOf [("0", .jnum 9)]))]))
      = .jobj false (fieldsOf
          [("a", .jobj true (fieldsOf [("0", .jnum 9), ("1", .jnum 2), ("2", .jnum 3)]))])
    ∧ mergeObjectsV
        (.jobj false (fieldsOf
          [("a", .jobj true (fieldsOf [("0", .jnum 1), ("1", .jnum 2), ("2", .jnum 3)]))]))
        (.jobj false (fieldsOf [("a", .jobj true (fieldsOf [("0", .jnum 9)]))]))
      ≠ .jobj false (fieldsOf [("a", .jobj true (fieldsOf [("0", .jnum 9)]))]) :=
  ⟨rfl, JsVal.ne_of_beq_eq_false (by decide)⟩

/-- The source loop of the engine equals: fold over the longest valid initial
run of the sources, throwing iff some source is invalid. -/
theorem mergeLoopV_eq : (ss : List JsVal) → (t : JsVal) →
    mergeLoopV t ss
      = (List.foldl mergeObjectsV t (ss.takeWhile JsVal.isObjLike), !ss.all JsVal.isObjLike)
  | [], t => by simp [mergeLoopV]
  | s :: rest, t => by
      by_cases hs : s.isObjLike = true
      · simp [mergeLoopV, hs, mergeLoopV_eq rest (mergeObjectsV t s), List.takeWhile_cons,
          List.all_cons]
      · have hs' : s.isObjLike = false := by simpa using hs
        simp [mergeLoopV, hs', List.takeWhile_cons, List.all_cons]

/-- C2: the engine's `merge(target, ...sources)` throws `MERGE_INVALID` if
and only if the target is null/undefined/non-object or some source is
null/undefined/non-object (equivalently: it completes without failing exactly
when the target and every source are non-null values of object type). -/
theorem engineMerge_invalid_iff (t : JsVal) (ss : List JsVal) :
    (mergeRunV t ss).2 = true
      ↔ (t.isObjLike = false ∨ ∃ s ∈ ss, s.isObjLike = false) := by
  by_cases ht : t.isObjLike = true
  · simp [mergeRunV, ht, mergeLoopV_eq, List.all_eq_true]
  · have ht' : t.isObjLike = false := by simpa using ht
    simp [mergeRunV, ht']

/-- The engine's `merge` validates each source only when it is reached: the
returned target holds the fold over the longest valid initial run of the
sources, and the call throws iff the target or any source is invalid. -/
theorem engineMerge_run_eq (t : JsVal) (ss : List JsVal) :
    mergeRunV t ss
      = (if t.isObjLike then List.foldl mergeObjectsV t (ss.takeWhile JsVal.isObjLike) else t,
         !(t.isObjLike && ss.all JsVal.isObjLike)) := by
  by_cases ht : t.isObjLike = true
  · simp [mergeRunV, ht, mergeLoopV_eq]
  · have ht' : t.isObjLike = false := by simpa using ht
    simp [mergeRunV, ht']

/-- C5 (counterexample): `merge({}, {a: 1}, null)` throws, yet the target is
left holding `{a: 1}`, not its entry value `{}` — the call is not atomic. -/
theorem engineMerge_not_atomic_counterexample :
    mergeRunV (.jobj false .nil) [.jobj false (fieldsOf [("a", .jnum 1)]), .jnull]
        = (.jobj false (fieldsOf [("a", .jnum 1)]), true)
      ∧ (JsVal.jobj false (fieldsOf [("a", .jnum 1)]) ≠ .jobj false .nil) :=
  ⟨rfl, JsVal.ne_of_beq_eq_false (by decide)⟩

/-- C3 (counterexample): the Store's `merge` with a `null` source does not
fail — it completes, leaving the configuration unchanged, because it
delegates to lodash `_.merge` (which ignores nullish sources) and contains
no validation; the claimed `InvalidArgument` failure never happens. -/
theorem storeMerge_null_ok_counterexample :
    storeMergeRun (.jobj false .nil) [JsVal.jnull] = .ok (.jobj false .nil) := rfl

/-- C3 (amended): the Store's `merge(...sources)` merges the sources left to
right with lodash `_.merge` (not the repo's own Deep-Merge Engine) and never
raises: nullish and primitive sources are simply skipped. -/
theorem storeMerge_never_throws (cfg : JsVal) (srcs : List JsVal) :
    (∃ v, storeMergeRun cfg srcs = .ok v)
    ∧ (∀ e, storeMergeRun cfg srcs ≠ .error e)
    ∧ storeMergeRun cfg (JsVal.jnull :: srcs) = storeMergeRun cfg srcs :=
  ⟨⟨_, rfl⟩, fun _ h => by simp [storeMergeRun] at h, rfl⟩

/-- C10: `get('')` behaves exactly like `get()` — the empty composed key is
falsy, so the whole configuration object is returned without any splitting
or walking. -/
theorem storeGet_empty_key (delim : String) (cfg : JsVal) :
    storeGet delim cfg (some "") = cfg ∧ storeGet delim cfg none = cfg :=
  ⟨rfl, rfl⟩

/-- C7: evaluating the code on the claimed scenario. `env` compares the
*formatted* (camelCased) name against the whitelist, so with the whitelist
`['MONGO:URL_CONNECTION']` the variable's formatted name
`mongo:urlConnection` is not found and *nothing* is merged — the claimed
result `{mongo: {urlConnection: ...}}` (also the expectation of the repo's
own unit test) is produced only if the whitelist already contains the
formatted name. -/
theorem envWhitelistFormatted_eval :
    envRun ":" [("MONGO:URL_CONNECTION", "mongodb://localhost:27017"),
                ("NOT_REQUIRED", "not required value")]
        (some ["MONGO:URL_CONNECTION"]) (.jobj false .nil)
      = .jobj false .nil
    ∧ joinDelim ":" ((splitStr ":" "MONGO:URL_CONNECTION").map camelCase)
      = "mongo:urlConnection"
    ∧ envRun ":" [("MONGO:URL_CONNECTION", "mongodb://localhost:27017"),
                  ("NOT_REQUIRED", "not required value")]
        (some ["mongo:urlConnection"]) (.jobj false .nil)
      = .jobj false (fieldsOf [("mongo", .jobj false (fieldsOf
          [("urlConnection", .jstr "mongodb://localhost:27017")]))]) :=
  ⟨rfl, by decide, rfl⟩

/-- `split` never returns the empty list. -/
theorem splitAuxL_ne_nil : ∀ (fuel : Nat) (sep acc rest : List Char),
    splitAuxL fuel sep acc rest ≠ []
  | 0, _, _, _ => by simp [splitAuxL]
  | _ + 1, _, _, [] => by simp [splitAuxL]
  | fuel + 1, sep, acc, c :: cs => by
      by_cases hs : startsWithL sep (c :: cs) = true <;>
        simp [splitAuxL, hs, splitAuxL_ne_nil fuel sep (c :: acc) cs]

/-- `splitStr` never returns the empty list. -/
theorem splitStr_ne_nil (sep s : String) : splitStr sep s ≠ [] := by
  simp [splitStr]
  exact splitAuxL_ne_nil _ _ _ _

/-- Splitting the empty string yields `[""]` for every separator. -/
theorem splitStr_empty (sep : String) : splitStr sep "" = [""] := rfl

/-- `_buildObject` over a non-empty key list is a plain (non-array) object. -/
theorem buildObject_obj (v : JsVal) :
    ∀ (segs : List String), segs ≠ [] → ∃ bfs, buildObject v segs = .jobj false bfs
  | [], hne => absurd rfl hne
  | [_], _ => ⟨_, rfl⟩
  | _ :: _ :: _, _ => ⟨_, rfl⟩

/-- A lodash merge whose source value is a plain object produces an object. -/
theorem lodashValueV_objsrc_isObjLike (tv : JsVal) (sfs : JsFields) :
    (lodashValueV tv (.jobj false sfs)).isObjLike = true := by
  cases tv <;> rfl

/-- A scalar lodash source value is assigned as is. -/
theorem lodashValueV_scalar (tv v : JsVal) (hv : v.isScalar = true) :
    lodashValueV tv v = v := by
  cases v <;> simp [JsVal.isScalar] at hv <;> cases tv <;> rfl

/-- Walking the chain `_buildObject` built returns the nested value. -/
theorem getObject_chain : (segs : List String) → segs ≠ [] → (v : JsVal) →
    getObject (buildObject v segs) segs = v
  | [], hne, _ => absurd rfl hne
  | [k], _, v => by simp [buildObject, getObject, JsVal.prop, JsFields.get]
  | k :: k2 :: ks, _, v => by
      have ih := getObject_chain (k2 :: ks) (by simp) v
      obtain ⟨ifs, hifs⟩ : ∃ ifs, buildObject v (k2 :: ks) = .jobj false ifs := by
        cases ks <;> exact ⟨_, rfl⟩
      rw [show buildObject v (k :: k2 :: ks)
            = .jobj false (.cons k (buildObject v (k2 :: ks)) .nil) from rfl, hifs]
      simp [getObject, JsVal.prop, JsFields.get, JsVal.isObjLike]
      rw [← hifs]
      exact ih

/-- Merging the chain `_buildObject` built over any current value with lodash
and then walking the chain's key list returns the nested scalar. -/
theorem setGet_chain : (segs : List String) → segs ≠ [] → (v : JsVal) →
    v.isScalar = true → (tv : JsVal) →
    getObject (lodashValueV tv (buildObject v segs)) segs = v
  | [], hne, _, _, _ => absurd rfl hne
  | [k], _, v, hv, tv => by
      have hval : ∀ tv2 : JsVal, lodashValueV tv2 v = v :=
        fun tv2 => lodashValueV_scalar tv2 v hv
      cases tv with
      | jobj ta tfs =>
          cases v <;> simp [JsVal.isScalar] at hv <;>
            simp [buildObject, lodashValueV, lodashFieldsV, getObject, JsVal.prop, hval,
              JsFields.get_set_self]
      | _ =>
          cases v <;> simp [JsVal.isScalar] at hv <;>
            simp [buildObject, lodashValueV, getObject, JsVal.prop, JsFields.get]
  | k :: k2 :: ks, _, v, hv, tv => by
      have ih := setGet_chain (k2 :: ks) (by simp) v hv
      obtain ⟨ifs, hifs⟩ : ∃ ifs, buildObject v (k2 :: ks) = .jobj false ifs := by
        cases ks <;> exact ⟨_, rfl⟩
      rw [show buildObject v (k :: k2 :: ks)
            = .jobj false (.cons k (buildObject v (k2 :: ks)) .nil) from rfl, hifs]
      cases tv with
      | jobj ta tfs =>
          cases htk : tfs.get k <;>
            (simp [lodashValueV, lodashFieldsV, getObject, JsVal.prop, htk,
               JsFields.get_set_self]
             have hthis := ih (tfs.get k)
             rw [hifs, htk] at hthis
             simpa [lodashValueV] using hthis)
      | _ =>
          simp [lodashValueV, getObject, JsVal.prop, JsFields.get]
          have hthis := ih JsVal.jundefined
          rw [hifs] at hthis
          simpa [lodashValueV] using hthis

/-- C6: round-trip through the store — for every configured delimiter
(non-empty, as the constructor coerces a falsy delimiter to `":"`), every
scalar value, and every composed key whose delimiter-separated segments are
non-empty, `set(key, v)` followed by `get(key)` returns exactly `v`; both
operations split the key with the same configured delimiter, so changing the
delimiter changes them consistently. -/
theorem storeSet_storeGet_roundtrip (delim key : String) (cfg v : JsVal)
    (_hdelim : delim ≠ "") (hcfg : cfg.isObjLike = true) (hv : v.isScalar = true)
    (hsegs : ∀ seg ∈ splitStr delim key, seg ≠ "") :
    storeGet delim (storeSet delim cfg key v) (some key) = v := by
  have hkey : key ≠ "" := by
    intro hk
    subst hk
    exact hsegs "" (by rw [splitStr_empty]; exact List.mem_singleton.mpr rfl) rfl
  have hne : splitStr delim key ≠ [] := splitStr_ne_nil delim key
  cases cfg with
  | jobj ca cfs =>
      obtain ⟨bfs, hb⟩ := buildObject_obj v (splitStr delim key) hne
      have hmv : lodashMergeV (.jobj ca cfs) (buildObject v (splitStr delim key))
          = lodashValueV (.jobj ca cfs) (buildObject v (splitStr delim key)) := by
        rw [hb]; rfl
      rw [storeGet, if_neg hkey, storeSet, hmv]
      exact setGet_chain (splitStr delim key) hne v hv (.jobj ca cfs)
  | jundefined => simp [JsVal.isObjLike] at hcfg
  | jnull => simp [JsVal.isObjLike] at hcfg
  | jbool b => simp [JsVal.isObjLike] at hcfg
  | jnum n => simp [JsVal.isObjLike] at hcfg
  | jstr s => simp [JsVal.isObjLike] at hcfg

/-- Witness for `storeSet_storeGet_roundtrip` with the default delimiter and
a fresh store, and for a `.`-delimited store: both round-trip. -/
theorem storeSet_storeGet_roundtrip_witness :
    ((":" : String) ≠ "" ∧ (JsVal.jobj false .nil).isObjLike = true
      ∧ (JsVal.jstr "x").isScalar = true
      ∧ (∀ seg ∈ splitStr ":" "a:b", seg ≠ ""))
    ∧ storeGet ":" (storeSet ":" (.jobj false .nil) "a:b" (.jstr "x")) (some "a:b")
        = .jstr "x"
    ∧ storeGet "." (storeSet "." (.jobj false .nil) "a.b" (.jstr "x")) (some "a.b")
        = .jstr "x" :=
  ⟨⟨by decide, by decide, by decide, by decide⟩,
   storeSet_storeGet_roundtrip ":" "a:b" (.jobj false .nil) (.jstr "x")
     (by decide) (by decide) (by decide) (by decide),
   storeSet_storeGet_roundtrip "." "a.b" (.jobj false .nil) (.jstr "x")
     (by decide) (by decide) (by decide) (by decide)⟩

/-- `leListChar` is total. -/
theorem leListChar_total : ∀ as bs : List Char,
    leListChar as bs = true ∨ leListChar bs as = true
  | [], _ => Or.inl rfl
  | _ :: _, [] => Or.inr rfl
  | a :: as, b :: bs => by
      by_cases hab : a = b
      · subst hab
        simpa [leListChar] using leListChar_total as bs
      · rcases lt_or_gt_of_ne hab with h | h
        · exact Or.inl (by simp [leListChar, hab, h])
        · have hba : ¬b = a := fun hh => hab hh.symm
          exact Or.inr (by simp [leListChar, hba, h])

/-- `leListChar` is transitive. -/
theorem leListChar_trans : ∀ as bs cs : List Char,
    leListChar as bs = true → leListChar bs cs = true → leListChar as cs = true
  | [], _, _, _, _ => rfl
  | _ :: _, [], _, h1, _ => by simp [leListChar] at h1
  | _ :: _, _ :: _, [], _, h2 => by simp [leListChar] at h2
  | a :: as, b :: bs, c :: cs, h1, h2 => by
      by_cases hab : a = b <;> by_cases hbc : b = c
      · subst hab; subst hbc
        simp only [leListChar, if_pos rfl] at h1 h2 ⊢
        exact leListChar_trans as bs cs h1 h2
      · subst hab
        simp only [leListChar, if_pos rfl, if_neg hbc] at h2 ⊢
        exact h2
      · subst hbc
        simp only [leListChar, if_neg hab] at h1 ⊢
        exact h1
      · simp only [leListChar, if_neg hab, if_neg hbc, decide_eq_true_eq] at h1 h2
        have hac : a < c := lt_trans h1 h2
        simp [leListChar, ne_of_lt hac, hac]

/-- `_loadFile` with `ignoreErrors = true` merges recognized files and is a
silent no-op on everything else. -/
theorem loadFileRun_true (f : String) (content c : JsVal) :
    loadFileRun f content true c
      = (if recognizedExt (extname f) then lodashMergeV c content else c, none) := by
  by_cases h1 : extname f = ".json"
  · simp [loadFileRun, recognizedExt, h1]
  · by_cases h2 : extname f = ".yml"
    · simp [loadFileRun, recognizedExt, h1, h2]
    · by_cases h3 : extname f = ".yaml" <;>
        simp [loadFileRun, recognizedExt, h1, h2, h3]

/-- The `_loadDir` loop folds the recognized file contents into the
configuration, in list order, and never produces an error. -/
theorem loadDirGo_eq : (l : List (String × FSNode)) → (d : String) → (c : JsVal) →
    loadDirGo d (c, none) l = (List.foldl lodashMergeV c (dirContents d l), none)
  | [], _, _ => rfl
  | (name, node) :: ps, d, c => by
      cases node with
      | file content =>
          by_cases hr : recognizedExt (extname (d ++ "/" ++ name)) = true
          · simp [loadDirGo, dirContents, loadFileRun_true, hr,
              loadDirGo_eq ps d (lodashMergeV c content)]
          · have hr' : recognizedExt (extname (d ++ "/" ++ name)) = false := by simpa using hr
            simp [loadDirGo, dirContents, loadFileRun_true, hr', loadDirGo_eq ps d c]
      | dir es => simp [loadDirGo, dirContents, loadDirGo_eq ps d c]

/-- C8: over a directory, `file` processes only the immediate entries —
sorted lexicographically by name (the sorted listing is a sorted permutation
of the raw listing) — merging each regular file with a recognized extension
in that order and silently skipping unrecognized extensions and
subdirectories, without ever raising; in the concrete two-file directory,
`test_2.json` is merged after `test_1.json`, so its value wins on the
conflicting key while a `readme` file and a subdirectory are ignored. -/
theorem loadDir_spec (configDir : String) (entries : List (String × FSNode)) (cfg : JsVal) :
    loadDirRun configDir entries cfg
        = (List.foldl lodashMergeV cfg (dirContents configDir (sortEntries entries)), none)
    ∧ List.Sorted (fun p q : String × FSNode => strLe p.1 q.1 = true) (sortEntries entries)
    ∧ (sortEntries entries).Perm entries
    ∧ fileRun "cfgdir" (.ok (.dir
        [("test_2.json", .file (.jobj false (fieldsOf [("key", .jnum 2)]))),
         ("readme", .file (.jstr "not json")),
         ("sub", .dir [("x.json", .file (.jobj false .nil))]),
         ("test_1.json", .file (.jobj false (fieldsOf [("key", .jnum 1)])))]))
        (.jobj false .nil)
      = (.jobj false (fieldsOf [("key", .jnum 2)]), none) := by
  letI : IsTotal (String × FSNode) (fun p q => strLe p.1 q.1 = true) :=
    ⟨fun a b => leListChar_total a.1.toList b.1.toList⟩
  letI : IsTrans (String × FSNode) (fun p q => strLe p.1 q.1 = true) :=
    ⟨fun a b c => leListChar_trans a.1.toList b.1.toList c.1.toList⟩
  exact ⟨loadDirGo_eq (sortEntries entries) configDir cfg,
    List.sorted_insertionSort _ entries,
    List.perm_insertionSort _ entries,
    rfl⟩

/-- C9: `file(path)` fails with `FILE_INVALID` — carrying the offending path
and a diagnostic message — whenever `statSync` fails (missing or inaccessible
path, with the filesystem error text), and whenever the path itself is a
regular file whose extension is outside {.json, .yml, .yaml} (wrapping the
"invalid extension" diagnostic); in both cases the configuration is returned
unmodified. -/
theorem fileRun_error_spec (path msg : String) (cfg content : JsVal) :
    fileRun path (.error msg) cfg = (cfg, some ⟨path, msg⟩)
    ∧ (recognizedExt (extname path) = false →
        fileRun path (.ok (.file content)) cfg
          = (cfg, some ⟨path,
              FileErr.rendered ⟨path, "Configuration file has an invalid extension"⟩⟩)) := by
  refine ⟨rfl, fun hr => ?_⟩
  have hr' : (extname path ≠ ".json" ∧ extname path ≠ ".yml") ∧ extname path ≠ ".yaml" := by
    simpa [recognizedExt] using hr
  simp [fileRun, loadFileRun, hr'.1.1, hr'.1.2, hr'.2]

/-- Witness for `fileRun_error_spec`: a missing path fails with the wrapped
filesystem message; `config/dir/readme` (no recognized extension, called as a
direct file path) fails with the wrapped invalid-extension message; the
configuration is unchanged in both cases. -/
theorem fileRun_error_spec_witness :
    recognizedExt (extname "config/dir/readme") = false
    ∧ fileRun "not/existent" (.error "ENOENT: no such file or directory") (.jobj false .nil)
        = (.jobj false .nil, some ⟨"not/existent", "ENOENT: no such file or directory"⟩)
    ∧ fileRun "config/dir/readme" (.ok (.file (.jstr "readme text"))) (.jobj false .nil)
        = (.jobj false .nil, some ⟨"config/dir/readme",
            FileErr.rendered ⟨"config/dir/readme", "Configuration file has an invalid extension"⟩⟩) :=
  ⟨by decide,
   (fileRun_error_spec "not/existent" "ENOENT: no such file or directory"
      (.jobj false .nil) (.jstr "readme text")).1,
   (fileRun_error_spec "config/dir/readme" "unused"
      (.jobj false .nil) (.jstr "readme text")).2 (by decide)⟩

theorem heapFind_heapSet_self : ∀ (h : Heap) (a : Nat) (o : HObj),
    heapFind (heapSet h a o) a = some o
  | [], a, o => by simp [heapSet, heapFind]
  | (b, w) :: h, a, o => by
      by_cases hba : b = a
      · simp [heapSet, heapFind, hba]
      · simp [heapSet, heapFind, hba, heapFind_heapSet_self h a o]

theorem heapFind_heapSet_ne : ∀ (h : Heap) (a c : Nat) (o : HObj), c ≠ a →
    heapFind (heapSet h a o) c = heapFind h c
  | [], a, c, o, hca => by simp [heapSet, heapFind, Ne.symm hca]
  | (b, w) :: h, a, c, o, hca => by
      by_cases hba : b = a
      · subst hba
        have hbc : b ≠ c := fun hh => hca hh.symm
        simp [heapSet, heapFind, hbc]
      · by_cases hbc : b = c
        · subst hbc
          simp [heapSet, heapFind, hba, hca]
        · simp [heapSet, heapFind, hba, hbc, heapFind_heapSet_ne h a c o hca]

theorem getField_mem : ∀ (fs : List (String × HVal)) (n : String) (w : HVal),
    getField fs n = some w → (n, w) ∈ fs
  | [], n, w, hg => by simp [getField] at hg
  | (m, v) :: fs, n, w, hg => by
      by_cases hmn : m = n
      · subst hmn
        simp [getField] at hg
        subst hg
        exact List.mem_cons_self _ _
      · simp [getField, hmn] at hg
        exact List.mem_cons_of_mem _ (getField_mem fs n w hg)

theorem mem_setField : ∀ (fs : List (String × HVal)) (n : String) (v : HVal)
    (p : String × HVal), p ∈ setField fs n v → p ∈ fs ∨ (p.1 = n ∧ p.2 = v)
  | [], n, v, p, hp => by
      simp [setField] at hp
      subst hp
      exact Or.inr ⟨rfl, rfl⟩
  | (m, w) :: fs, n, v, p, hp => by
      by_cases hmn : m = n
      · subst hmn
        simp only [setField, if_pos rfl] at hp
        rcases List.mem_cons.mp hp with hp1 | hp1
        · subst hp1
          exact Or.inr ⟨rfl, rfl⟩
        · exact Or.inl (List.mem_cons_of_mem _ hp1)
      · simp only [setField, if_neg hmn] at hp
        rcases List.mem_cons.mp hp with hp1 | hp1
        · subst hp1
          exact Or.inl (List.mem_cons_self _ _)
        · rcases mem_setField fs n v p hp1 with hin | hnew
          · exact Or.inl (List.mem_cons_of_mem _ hin)
          · exact Or.inr hnew

/-- The assignment branch of the heap-level property loop preserves the
frame: overwriting one slot of the target object stays inside any edge-closed
set containing the target and the snapshot values. -/
theorem hMerge_frame_assign (fuel : Nat)
    (ihF : ∀ (h : Heap) (t : Nat) (fs : List (String × HVal)) (h' : Heap) (R : Nat → Prop),
       hMergeFields fuel h t fs = some h' → edgeClosed h R → R t → valsWithin R fs →
       (∀ a, ¬ R a → heapFind h' a = heapFind h a) ∧ edgeClosed h' R)
    (h : Heap) (t : Nat) (n : String) (sv : HVal) (rest : List (String × HVal))
    (tobj : HObj) (h' : Heap) (R : Nat → Prop)
    (hrun : hMergeFields fuel (heapSet h t ⟨tobj.isArr, setField tobj.fields n sv⟩) t rest
      = some h')
    (hft : heapFind h t = some tobj)
    (hcl : edgeClosed h R) (hRt : R t)
    (hvw : valsWithin R ((n, sv) :: rest))
    (hvwrest : valsWithin R rest) :
    (∀ a, ¬ R a → heapFind h' a = heapFind h a) ∧ edgeClosed h' R := by
  have hfr0 : ∀ a, ¬ R a →
      heapFind (heapSet h t ⟨tobj.isArr, setField tobj.fields n sv⟩) a = heapFind h a := by
    intro a ha
    exact heapFind_heapSet_ne h t a _ (fun haa => ha (haa ▸ hRt))
  have hcl2 : edgeClosed (heapSet h t ⟨tobj.isArr, setField tobj.fields n sv⟩) R := by
    intro x b hx hedge
    obtain ⟨o', n', hfo, hmem⟩ := hedge
    by_cases hxt : x = t
    · subst hxt
      rw [heapFind_heapSet_self] at hfo
      have ho : (⟨tobj.isArr, setField tobj.fields n sv⟩ : HObj) = o' := by injection hfo
      rw [← ho] at hmem
      rcases mem_setField _ _ _ _ hmem with hold | hnew
      · exact hcl x b hx ⟨tobj, n', hft, hold⟩
      · have hsvb : sv = HVal.href b := hnew.2.symm
        exact hvw (n, sv) (List.mem_cons_self _ _) b hsvb
    · rw [heapFind_heapSet_ne h t x _ hxt] at hfo
      exact hcl x b hx ⟨o', n', hfo, hmem⟩
  obtain ⟨hfr2, hcl3⟩ := ihF _ t rest h' R hrun hcl2 hRt hvwrest
  exact ⟨fun a ha => (hfr2 a ha).trans (hfr0 a ha), hcl3⟩

/-- Framing of the heap-level `mergeObjects`: a set of addresses closed under
the heap's reference edges and containing the target and the source is a
boundary the merge cannot escape — every address outside it keeps its exact
binding, and the set stays edge-closed in the resulting heap. -/
theorem hMerge_frame : ∀ (fuel : Nat),
    (∀ (h : Heap) (t s : Nat) (h' : Heap) (R : Nat → Prop),
       hMergeObjects fuel h t s = some h' → edgeClosed h R → R t → R s →
       (∀ a, ¬ R a → heapFind h' a = heapFind h a) ∧ edgeClosed h' R)
    ∧ (∀ (h : Heap) (t : Nat) (fs : List (String × HVal)) (h' : Heap) (R : Nat → Prop),
       hMergeFields fuel h t fs = some h' → edgeClosed h R → R t → valsWithin R fs →
       (∀ a, ¬ R a → heapFind h' a = heapFind h a) ∧ edgeClosed h' R) := by
  intro fuel
  induction fuel with
  | zero =>
      constructor
      · intro h t s h' R hrun
        simp [hMergeObjects] at hrun
      · intro h t fs h' R hrun
        simp [hMergeFields] at hrun
  | succ fuel ih =>
      obtain ⟨ihO, ihF⟩ := ih
      constructor
      · intro h t s h' R hrun hcl hRt hRs
        simp only [hMergeObjects] at hrun
        cases hfs : heapFind h s with
        | none =>
            simp only [hfs] at hrun
            exact Option.noConfusion hrun
        | some so =>
            simp only [hfs] at hrun
            refine ihF h t so.fields h' R hrun hcl hRt ?_
            intro p hp b hb
            refine hcl s b hRs ⟨so, p.1, hfs, ?_⟩
            have hp' : (p.1, p.2) ∈ so.fields := by simpa using hp
            rw [hb] at hp'
            exact hp'
      · intro h t fs h' R hrun hcl hRt hvw
        cases fs with
        | nil =>
            simp only [hMergeFields] at hrun
            have hh : h = h' := by injection hrun
            subst hh
            exact ⟨fun a _ => rfl, hcl⟩
        | cons p rest =>
            obtain ⟨n, sv⟩ := p
            have hvwrest : valsWithin R rest :=
              fun q hq b hb => hvw q (List.mem_cons_of_mem _ hq) b hb
            simp only [hMergeFields] at hrun
            cases hft : heapFind h t with
            | none =>
                simp only [hft] at hrun
                exact Option.noConfusion hrun
            | some tobj =>
                simp only [hft] at hrun
                cases hta : (getField tobj.fields n).bind HVal.refOf with
                | some ta =>
                    cases hsa : sv.refOf with
                    | some sa =>
                        simp only [hta, hsa] at hrun
                        cases hm : hMergeObjects fuel h ta sa with
                        | none =>
                            simp only [hm] at hrun
                            exact Option.noConfusion hrun
                        | some h1 =>
                            simp only [hm] at hrun
                            have hRta : R ta := by
                              obtain ⟨w, hw, hwr⟩ := Option.bind_eq_some.mp hta
                              have hwref : w = HVal.href ta := by
                                cases w <;> simp [HVal.refOf] at hwr
                                simp [hwr]
                              subst hwref
                              exact hcl t ta hRt ⟨tobj, n, hft, getField_mem _ _ _ hw⟩
                            have hRsa : R sa := by
                              have hsv : sv = HVal.href sa := by
                                cases sv <;> simp [HVal.refOf] at hsa
                                simp [hsa]
                              exact hvw (n, sv) (List.mem_cons_self _ _) sa hsv
                            obtain ⟨hfr1, hcl1⟩ := ihO h ta sa h1 R hm hcl hRta hRsa
                            obtain ⟨hfr2, hcl2⟩ := ihF h1 t rest h' R hrun hcl1 hRt hvwrest
                            exact ⟨fun a ha => (hfr2 a ha).trans (hfr1 a ha), hcl2⟩
                    | none =>
                        simp only [hta, hsa] at hrun
                        exact hMerge_frame_assign fuel ihF h t n sv rest tobj h' R
                          hrun hft hcl hRt hvw hvwrest
                | none =>
                    simp only [hta] at hrun
                    exact hMerge_frame_assign fuel ihF h t n sv rest tobj h' R
                      hrun hft hcl hRt hvw hvwrest

/-- Framing of the engine's source loop at heap level. -/
theorem hMergeLoop_frame : ∀ (ss : List HVal) (fuel : Nat) (h : Heap) (t : Nat)
    (hp : Heap × Bool) (R : Nat → Prop),
    hMergeLoop fuel h t ss = some hp → edgeClosed h R → R t →
    (∀ s ∈ ss, ∀ b, HVal.refOf s = some b → R b) →
    (∀ a, ¬ R a → heapFind hp.1 a = heapFind h a) ∧ edgeClosed hp.1 R
  | [], fuel, h, t, hp, R, hrun, hcl, _, _ => by
      simp only [hMergeLoop] at hrun
      have hh : (h, false) = hp := by injection hrun
      rw [← hh]
      exact ⟨fun a _ => rfl, hcl⟩
  | s :: rest, fuel, h, t, hp, R, hrun, hcl, hRt, hss => by
      simp only [hMergeLoop] at hrun
      cases hsr : s.refOf with
      | none =>
          simp only [hsr] at hrun
          have hh : (h, true) = hp := by injection hrun
          rw [← hh]
          exact ⟨fun a _ => rfl, hcl⟩
      | some sa =>
          simp only [hsr] at hrun
          cases hm : hMergeObjects fuel h t sa with
          | none =>
              simp only [hm] at hrun
              exact Option.noConfusion hrun
          | some h1 =>
              simp only [hm] at hrun
              have hRsa : R sa := hss s (List.mem_cons_self _ _) sa hsr
              obtain ⟨hfr1, hcl1⟩ := (hMerge_frame fuel).1 h t sa h1 R hm hcl hRt hRsa
              obtain ⟨hfr2, hcl2⟩ :=
                hMergeLoop_frame rest fuel h1 t hp R hrun hcl1 hRt
                  (fun q hq b hb => hss q (List.mem_cons_of_mem _ hq) b hb)
              exact ⟨fun a ha => (hfr2 a ha).trans (hfr1 a ha), hcl2⟩

/-- C4 (amended): the engine's `merge` mutates the target in place and,
because assigned values are aliased rather than deep-copied, it can also
mutate its *sources* (see the counterexample); its side effects are, however,
confined to the object graph of its arguments: every heap address outside any
set that is closed under reference edges and contains the target address and
the source addresses keeps its exact binding across the call. -/
theorem engineMerge_frame (fuel : Nat) (h : Heap) (target : HVal) (sources : List HVal)
    (hp : Heap × Bool) (R : Nat → Prop)
    (hrun : hMergeRun fuel h target sources = some hp)
    (hcl : edgeClosed h R)
    (hRt : ∀ b, target.refOf = some b → R b)
    (hRs : ∀ s ∈ sources, ∀ b, HVal.refOf s = some b → R b) :
    ∀ a, ¬ R a → heapFind hp.1 a = heapFind h a := by
  unfold hMergeRun at hrun
  cases htr : target.refOf with
  | none =>
      rw [htr] at hrun
      simp only at hrun
      have hh : (h, true) = hp := by injection hrun
      rw [← hh]
      exact fun a _ => rfl
  | some ta =>
      rw [htr] at hrun
      simp only at hrun
      exact (hMergeLoop_frame sources fuel h ta hp R hrun hcl (hRt ta htr) hRs).1

/-- C4 (counterexample): running the engine's `merge(target, s1, s2)` on the
heap where `target = {}`, `s1 = {a: {x: 1}}`, `s2 = {a: {y: 2}}` mutates the
*source* `s1`: afterwards `s1` reads back as `{a: {x: 1, y: 2}}`, not its
entry value `{a: {x: 1}}` — the first merge aliased `s1.a` into the target
and the second merge then mutated that shared object. -/
theorem engineMerge_mutates_source_counterexample :
    (hMergeRun 10 aliasHeap (.href 0) [.href 1, .href 3]).bind
        (fun p => readVal 10 p.1 (.href 1))
      = some (.jobj false (fieldsOf
          [("a", .jobj false (fieldsOf [("x", .jnum 1), ("y", .jnum 2)]))]))
    ∧ readVal 10 aliasHeap (.href 1)
      = some (.jobj false (fieldsOf [("a", .jobj false (fieldsOf [("x", .jnum 1)]))]))
    ∧ (JsVal.jobj false (fieldsOf
          [("a", .jobj false (fieldsOf [("x", .jnum 1), ("y", .jnum 2)]))])
        ≠ .jobj false (fieldsOf [("a", .jobj false (fieldsOf [("x", .jnum 1)]))])) :=
  ⟨rfl, rfl, JsVal.ne_of_beq_eq_false (by decide)⟩

/-- Witness for `engineMerge_frame`: in the aliasing scenario extended with
an unreachable object at address 9, the set {0,1,2,3,4} is edge-closed and
contains the target and source addresses, and address 9 is untouched by the
merge. -/
theorem engineMerge_frame_witness :
    edgeClosed aliasHeapW (fun a => a ∈ ([0, 1, 2, 3, 4] : List Nat))
    ∧ heapFind aliasMergedW 9 = heapFind aliasHeapW 9 := by
  have hcl : edgeClosed aliasHeapW (fun a => a ∈ ([0, 1, 2, 3, 4] : List Nat)) := by
    intro a b ha hedge
    obtain ⟨o, n, hfo, hmem⟩ := hedge
    simp only [List.mem_cons, List.mem_singleton] at ha
    rcases ha with rfl | rfl | rfl | rfl | rfl | hfalse
    · simp [aliasHeapW, aliasHeap, heapFind] at hfo
      rw [← hfo] at hmem
      simp at hmem
    · simp [aliasHeapW, aliasHeap, heapFind] at hfo
      rw [← hfo] at hmem
      simp at hmem
      rw [hmem.2]
      decide
    · simp [aliasHeapW, aliasHeap, heapFind] at hfo
      rw [← hfo] at hmem
      simp at hmem
    · simp [aliasHeapW, aliasHeap, heapFind] at hfo
      rw [← hfo] at hmem
      simp at hmem
      rw [hmem.2]
      decide
    · simp [aliasHeapW, aliasHeap, heapFind] at hfo
      rw [← hfo] at hmem
      simp at hmem
    · exact absurd hfalse (by simp)
  have hrun : hMergeRun 10 aliasHeapW (.href 0) [.href 1, .href 3]
      = some (aliasMergedW, false) := by decide
  refine ⟨hcl, ?_⟩
  refine engineMerge_frame 10 aliasHeapW (.href 0) [.href 1, .href 3]
      (aliasMergedW, false) (fun a => a ∈ ([0, 1, 2, 3, 4] : List Nat)) hrun hcl
      ?_ ?_ 9 (by decide)
  · intro b hb
    simp [HVal.refOf] at hb
    rw [← hb]
    decide
  · intro s hs b hb
    simp only [List.mem_cons, List.mem_singleton] at hs
    rcases hs with rfl | rfl | hfalse
    · simp [HVal.refOf] at hb
      rw [← hb]
      decide
    · simp [HVal.refOf] at hb
      rw [← hb]
      decide
    · exact absurd hfalse (by simp)

/-- C5 (amended): per-call atomicity holds for the Store's `merge` (which
never fails at all) and for every failure of a *direct* `file` call —
missing/inaccessible path, unrecognized extension, or a parse failure of the
single file — all of which leave the configuration exactly as it was; but it
fails in two places: the engine's `merge` validates each source only when it
is reached, so a failing call leaves the target holding the merges of exactly
the sources before the first invalid one (unchanged only when no valid source
precedes it), and a directory scan in which a recognized file fails to parse
aborts `file()` with the alphabetically earlier entries already merged into
the configuration — shown concretely: with `a.json = {x:1}` parsed, `b.json`
failing to parse and `c.json = {y:2}` never reached, the call errors yet the
configuration has become `{x:1}`, not its entry value `{}`. -/
theorem perCall_atomicity_spec :
    (∀ (t : JsVal) (ss : List JsVal),
       mergeRunV t ss
         = (if t.isObjLike then List.foldl mergeObjectsV t (ss.takeWhile JsVal.isObjLike)
            else t,
            !(t.isObjLike && ss.all JsVal.isObjLike)))
    ∧ (∀ (path msg : String) (cfg : JsVal), (filePRun path (.error msg) cfg).1 = cfg)
    ∧ (∀ (path : String) (parsed : Except String JsVal) (cfg : JsVal),
        recognizedExt (extname path) = false →
        (filePRun path (.ok (.file parsed)) cfg).1 = cfg)
    ∧ (∀ (path m : String) (cfg : JsVal),
        (filePRun path (.ok (.file (.error m))) cfg).1 = cfg)
    ∧ (∀ (cfg : JsVal) (srcs : List JsVal), ∃ v, storeMergeRun cfg srcs = .ok v)
    ∧ filePRun "cfgdir" (.ok (.dir
        [("c.json", .file (.ok (.jobj false (fieldsOf [("y", .jnum 2)])))),
         ("a.json", .file (.ok (.jobj false (fieldsOf [("x", .jnum 1)])))),
         ("b.json", .file (.error "unexpected token"))]))
        (.jobj false .nil)
      = (.jobj false (fieldsOf [("x", .jnum 1)]), some ⟨"cfgdir", "unexpected token"⟩)
    ∧ (JsVal.jobj false (fieldsOf [("x", .jnum 1)]) ≠ .jobj false .nil) := by
  refine ⟨engineMerge_run_eq, fun _ _ _ => rfl, ?_, ?_, fun _ _ => ⟨_, rfl⟩, rfl,
    JsVal.ne_of_beq_eq_false (by decide)⟩
  · intro path parsed cfg hr
    have hr' : (extname path ≠ ".json" ∧ extname path ≠ ".yml") ∧ extname path ≠ ".yaml" := by
      simpa [recognizedExt] using hr
    simp [filePRun, loadFilePRun, hr'.1.1, hr'.1.2, hr'.2]
  · intro path m cfg
    by_cases h1 : extname path = ".json"
    · simp [filePRun, loadFilePRun, h1]
    · by_cases h2 : extname path = ".yml"
      · simp [filePRun, loadFilePRun, h1, h2]
      · by_cases h3 : extname path = ".yaml" <;> simp [filePRun, loadFilePRun, h1, h2, h3]

/-- Witness for `perCall_atomicity_spec`: a direct `file` call on a path with
an unrecognized extension leaves the configuration unchanged. -/
theorem perCall_atomicity_spec_witness :
    recognizedExt (extname "config/file.txt") = false
    ∧ (filePRun "config/file.txt" (.ok (.file (.ok (.jstr "txt")))) (.jobj false .nil)).1
        = .jobj false .nil :=
  ⟨by decide,
   perCall_atomicity_spec.2.2.1 "config/file.txt" (.ok (.jstr "txt")) (.jobj false .nil)
     (by decide)⟩
